import Mathlib

/-!
Verification of the commit-history acquisition and metrics-derivation
pipeline of the github-commit-analyzer repository.

The JavaScript source is shallowly embedded: JS numbers that only ever hold
exact small values (scores, counts, percentages, millisecond timestamps)
are modelled as `ℕ`, `ℤ` or `ℚ`; JS strings as `String` (operating on
`String.data`, the underlying `List Char`, so everything reduces in the
kernel); absent/`null`/`undefined` values as `Option`; thrown errors as
`Except`.  HTTP header values cannot contain raw newlines, so regex `.` is
modelled as matching every character.
-/

namespace GCA

/-! ### Generic JS helpers -/

/-- `Math.round`: rounds to the nearest integer, halves toward `+∞`. -/
def jsRound (q : ℚ) : ℤ := (q + 1 / 2).floor

/-- `Math.min` on exact values. -/
def jsMin (a b : ℚ) : ℚ := if a ≤ b then a else b

/-- `Math.max` on exact values. -/
def jsMax (a b : ℚ) : ℚ := if a ≤ b then b else a

/-- `clamp(n, min, max) = Math.max(min, Math.min(max, n))` from the source. -/
def clamp (n lo hi : ℚ) : ℚ := jsMax lo (jsMin hi n)

/-- `String.prototype.split` with a single-character separator, on the
underlying character list (`"".split(sep) = [""]`, separators at the ends
produce empty groups, exactly as in JS). -/
def splitChars (sep : Char) : List Char → List (List Char)
  | [] => [[]]
  | c :: rest =>
    match splitChars sep rest with
    | [] => [[]]
    | group :: groups =>
      if c = sep then [] :: group :: groups else (c :: group) :: groups

/-- `String.prototype.trim` (header values are ASCII, so trimming the
`Char.isWhitespace` characters coincides with the JS whitespace set). -/
def trimChars (l : List Char) : List Char :=
  ((l.dropWhile Char.isWhitespace).reverse.dropWhile Char.isWhitespace).reverse

/-! ### Experience scorer (`calculateExperienceLevel`, primary variant)

`totalCommits` is a count (`ℕ`), `onTimePercentage` the exact rational value
of the JS float `(onTimeCount / totalCommits) * 100`, `messageQuality` and
`consistency` the `Math.round`ed integers fed to the function by the caller.
All comparisons against integer literals coincide with the JS float
comparisons on these values. -/

structure ExperienceLevel where
  level : String
  tone : String
  score : ℕ
  deriving Repr, DecidableEq

/-- Commit volume contribution (capped at 40). -/
def volumeScore (totalCommits : ℕ) : ℕ :=
  if totalCommits > 200 then 40
  else if totalCommits > 150 then 35
  else if totalCommits > 100 then 30
  else if totalCommits > 50 then 25
  else 10

/-- Work pattern contribution (capped at 15). -/
def patternScore (onTimePercentage : ℚ) : ℕ :=
  if onTimePercentage ≥ 60 then 15
  else if onTimePercentage ≥ 50 then 10
  else if onTimePercentage ≥ 30 then 5
  else 2

/-- Message quality contribution (capped at 25). -/
def qualityScore (messageQuality : ℤ) : ℕ :=
  if messageQuality ≥ 50 then 25
  else if messageQuality ≥ 40 then 20
  else if messageQuality ≥ 30 then 15
  else 10

/-- Consistency contribution (capped at 20); also inspects the commit count. -/
def consistencyPart (consistency : ℤ) (totalCommits : ℕ) : ℕ :=
  if consistency ≥ 70 ∧ totalCommits > 100 then 20
  else if consistency ≥ 60 ∧ totalCommits > 50 then 15
  else if consistency ≥ 40 ∧ totalCommits > 20 then 10
  else 5

/-- Final score-to-level mapping (level name and badge tone). -/
def levelFor (score : ℕ) : String × String :=
  if score ≥ 80 then ("Senior", "purple")
  else if score ≥ 60 then ("Mid-Level", "blue")
  else if score ≥ 40 then ("Junior", "green")
  else ("Beginner", "yellow")

/-- `calculateExperienceLevel` from the primary variant: the four `score +=`
groups of the source are the four contribution functions above, summed in
order. -/
def calculateExperienceLevel (totalCommits : ℕ) (onTimePercentage : ℚ)
    (messageQuality consistency : ℤ) : ExperienceLevel :=
  let score := volumeScore totalCommits + patternScore onTimePercentage
      + qualityScore messageQuality + consistencyPart consistency totalCommits
  { level := (levelFor score).1, tone := (levelFor score).2, score := score }

/-! Secondary variant of the scorer (second source file): commit volume is
capped at 35 and message quality at 30, with a message-quality floor of 15;
the work-pattern, consistency and level-mapping tiers are identical. -/

/-- Commit volume contribution of the secondary variant (capped at 35). -/
def volumeScoreV2 (totalCommits : ℕ) : ℕ :=
  if totalCommits > 200 then 35
  else if totalCommits > 150 then 30
  else if totalCommits > 100 then 25
  else if totalCommits > 50 then 20
  else 10

/-- Message quality contribution of the secondary variant (capped at 30). -/
def qualityScoreV2 (messageQuality : ℤ) : ℕ :=
  if messageQuality ≥ 50 then 30
  else if messageQuality ≥ 40 then 25
  else if messageQuality ≥ 30 then 20
  else 15

/-- `calculateExperienceLevel` from the secondary variant. -/
def calculateExperienceLevelV2 (totalCommits : ℕ) (onTimePercentage : ℚ)
    (messageQuality consistency : ℤ) : ExperienceLevel :=
  let score := volumeScoreV2 totalCommits + patternScore onTimePercentage
      + qualityScoreV2 messageQuality + consistencyPart consistency totalCommits
  { level := (levelFor score).1, tone := (levelFor score).2, score := score }

/-! ### Per-commit message-quality score

The base-metrics loop gives a commit message up to four independent 25-point
rewards: length over 10, length over 30, a conventional-commit prefix
(regex `^(feat|fix|docs|refactor|test|chore|style|perf):` with the `i`
flag), and an issue reference (regex `#\d+` anywhere).  Message lengths are
counted in characters, which agrees with the JS UTF-16 `length` on the
commit messages considered here. -/

def convWords : List String :=
  ["feat", "fix", "docs", "refactor", "test", "chore", "style", "perf"]

/-- Case-insensitive conventional-commit prefix check: the regex matches
exactly when the lowercased message starts with one of the (already
lowercase, ASCII) alternatives followed by `:`. -/
def isConventional (message : String) : Bool :=
  convWords.any (fun p => (p.data ++ [':']).isPrefixOf (message.data.map Char.toLower))

/-- `#\d+` matches exactly when some `#` is immediately followed by a digit. -/
def hasIssueRef : List Char → Bool
  | '#' :: d :: rest => d.isDigit || hasIssueRef (d :: rest)
  | _ :: rest => hasIssueRef rest
  | [] => false

/-- The per-commit `messageScore` accumulation of the base-metrics loop. -/
def messageScore (message : String) : ℕ :=
  (if message.length > 10 then 25 else 0)
    + (if message.length > 30 then 25 else 0)
    + (if isConventional message then 25 else 0)
    + (if hasIssueRef message.data then 25 else 0)

/-! ### Commits and the base-metrics pass -/

/-- A raw commit as consumed by the pipeline.  `sha` is `none` when the
identifier is absent or empty (both falsy in JS); `date` is the author
timestamp in milliseconds since the epoch, `none` when the field is absent
or `new Date` cannot parse it (`NaN`). -/
structure Commit where
  sha : Option String
  date : Option ℚ
  message : String
  deriving Repr, DecidableEq

/-- The valid author timestamps collected by the base loop (`commitDates`):
commits whose date is absent or unparsable are skipped. -/
def validDates (commits : List Commit) : List ℚ :=
  commits.filterMap Commit.date

/-- `totalMessageScore` accumulation of the base loop: a commit without a
valid timestamp is skipped (`continue`) before its message is scored. -/
def totalMessageScore : List Commit → ℕ
  | [] => 0
  | c :: rest =>
    (match c.date with
      | none => 0
      | some _ => messageScore c.message) + totalMessageScore rest

/-- `messageQualityScore = totalCommits ? Math.round(totalMessageScore /
totalCommits) : 0`, where `totalCommits = allCommits.length` counts every
listed commit. -/
def messageQualityScore (commits : List Commit) : ℤ :=
  if commits.length = 0 then 0
  else jsRound ((totalMessageScore commits : ℚ) / (commits.length : ℚ))

/-- Modelled from the spec (for comparison with `messageQualityScore`): the
overall score as the specification words it, a mean taken over exactly the
commits with a valid timestamp. -/
def specMessageQuality (commits : List Commit) : ℤ :=
  if (validDates commits).length = 0 then 0
  else jsRound ((totalMessageScore commits : ℚ) / ((validDates commits).length : ℚ))

/-! ### Consistency score -/

/-- Ascending sort of the valid timestamps (`[...commitDates].sort((a, b) =>
a - b)`); for numeric values any ascending reordering is the unique sorted
sequence, so insertion sort is a faithful model. -/
def sortedDates (dates : List ℚ) : List ℚ :=
  dates.insertionSort (· ≤ ·)

/-- Gaps between consecutive timestamps, converted to days
(`(t₂ − t₁) / (1000·60·60·24)`). -/
def dayGaps : List ℚ → List ℚ
  | a :: b :: rest => (b - a) / 86400000 :: dayGaps (b :: rest)
  | _ => []

/-- The `intervals` array: consecutive day gaps of the sorted dates, keeping
only those that are `≥ 0` (every exact rational is finite, so
`Number.isFinite` never rejects here). -/
def intervals (dates : List ℚ) : List ℚ :=
  (dayGaps (sortedDates dates)).filter (fun d => 0 ≤ d)

/-- `avgInterval`: mean of the kept gaps, `0` when there are none. -/
def avgInterval (dates : List ℚ) : ℚ :=
  if (intervals dates).length = 0 then 0
  else (intervals dates).sum / ((intervals dates).length : ℚ)

/-- `consistencyScore = clamp(100 - avgInterval * 5, 0, 100)`. -/
def consistencyScoreOf (dates : List ℚ) : ℚ :=
  clamp (100 - avgInterval dates * 5) 0 100

/-! ### `parseLinkHeader` -/

/-- `replace(/^<|>$/g, "")`: drop one leading `<` and one trailing `>`,
each when present. -/
def stripAngles (l : List Char) : List Char :=
  let l1 := match l with
    | '<' :: rest => rest
    | _ => l
  match l1.getLast? with
  | some '>' => l1.dropLast
  | _ => l1

/-- The suffix following the first occurrence of `pat`, or `none` when
`pat` does not occur. -/
def afterFirst (pat : List Char) : List Char → Option (List Char)
  | [] => if pat = [] then some [] else none
  | c :: rest =>
    if pat.isPrefixOf (c :: rest) then some ((c :: rest).drop pat.length)
    else afterFirst pat rest

/-- The prefix preceding the last occurrence of `ch`, or `none` when `ch`
does not occur. -/
def beforeLast (ch : Char) : List Char → Option (List Char)
  | [] => none
  | c :: rest =>
    match beforeLast ch rest with
    | some r => some (c :: r)
    | none => if c = ch then some [] else none

/-- `match(/rel="(.*)"/)?.[1]`: the regex matches at the earliest position
where `rel="` occurs with a later `"`, and the greedy `.*` captures up to
the last `"`; when the first `rel="` occurrence has no later `"`, no
occurrence has one, so the match fails. -/
def relMatch (l : List Char) : Option (List Char) :=
  match afterFirst ("rel=\"").data l with
  | none => none
  | some rest => beforeLast '"' rest

/-- One comma-separated part of the header: split on `;`, take the trimmed,
angle-stripped first segment as the URL and the `rel="…"` capture of the
trimmed second segment as the relation; the entry is kept only when both
are truthy (non-empty). -/
def entryParse (p : List Char) : Option (String × String) :=
  let seg := splitChars ';' p
  let url := stripAngles (trimChars (seg.headD []))
  match seg.get? 1 with
  | none => none
  | some s1 =>
    match relMatch (trimChars s1) with
    | none => none
    | some r => if url = [] ∨ r = [] then none else some (⟨r⟩, ⟨url⟩)

/-- JS object property assignment `links[rel] = url`: an existing key keeps
its position and gets the new value, a new key is appended. -/
def objInsert (m : List (String × String)) (k v : String) : List (String × String) :=
  if m.any (fun q => q.1 == k) then m.map (fun q => if q.1 = k then (q.1, v) else q)
  else m ++ [(k, v)]

/-- `parseLinkHeader`: a falsy (absent or empty) header yields the empty
mapping; otherwise split on `,`, extract each entry and assign
`links[rel] = url` in order. -/
def parseLinkHeader (linkHeader : Option String) : List (String × String) :=
  match linkHeader with
  | none => []
  | some h =>
    if h = "" then []
    else ((splitChars ',' h.data).filterMap entryParse).foldl
      (fun m kv => objInsert m kv.1 kv.2) []

/-- Property read `links[k]` (used as `links.next`). -/
def lookupRel (k : String) (m : List (String × String)) : Option String :=
  (m.find? (fun q => q.1 == k)).map (fun q => q.2)

/-! ### The pagination loop of `analyzeCommits`

A `Page` is the normalized `fetchJson` result for one page URL: the `ok`
flag and status of the response, the parsed body (`none` when the body is
not an array), the literal `Link` header, and `errText` standing for the
composed message of the 403 branch (rate-limit headers and body text, not
claim-relevant).  The server is a pure function from URL to `Page`. -/

structure Page where
  ok : Bool
  status : ℕ
  body : Option (List Commit)
  link : Option String
  errText : String
  deriving Repr, DecidableEq

/-- The fatal listing failures thrown out of the loop. -/
inductive RunErr where
  | notFound
  | unauthorized
  | forbidden (msg : String)
  | apiError (status : ℕ)
  | noCommits
  deriving Repr, DecidableEq

/-- The user-visible message of each thrown error. -/
def RunErr.message : RunErr → String
  | .notFound => "Repo not found (check owner/repo spelling and access)"
  | .unauthorized => "Unauthorized: token invalid or missing required scopes"
  | .forbidden m => m
  | .apiError s => s!"GitHub API error: {s}"
  | .noCommits => "No commits found"

/-- Classification of a non-ok page response. -/
def classifyStatus (page : Page) : RunErr :=
  if page.status = 404 then .notFound
  else if page.status = 401 then .unauthorized
  else if page.status = 403 then .forbidden page.errText
  else .apiError page.status

/-- The per-item body of the page loop: a commit with a truthy identifier
already in `seenShas` is skipped; otherwise its identifier (when truthy) is
marked seen and the commit is appended to `allCommits`. -/
def processPageItems : List String → List Commit → List Commit → List String × List Commit
  | seen, acc, [] => (seen, acc)
  | seen, acc, c :: rest =>
    match c.sha with
    | some s =>
      if s ∈ seen then processPageItems seen acc rest
      else processPageItems (s :: seen) (acc ++ [c]) rest
    | none => processPageItems seen (acc ++ [c]) rest

/-- The `while (nextUrl)` loop, fuelled: `none` means the fuel ran out
before the loop finished.  One iteration: stop when the URL was already
visited (cycle guard); classify and throw on a non-ok response; stop when
the body is not a non-empty array; merge the items; continue with the
`next` relation of the `Link` header, stopping when it is absent (the
source's `links.next || ""` paired with the loop condition).  The per-page
progress report and the every-third-page `sleep(0)` are side effects with
no bearing on the result and are not modelled. -/
def listCommitsLoop (server : String → Page) :
    ℕ → String → List String → List String → List Commit →
      Option (Except RunErr (List Commit))
  | 0, _, _, _, _ => none
  | fuel + 1, nextUrl, seenPageUrls, seenShas, allCommits =>
    if nextUrl ∈ seenPageUrls then some (.ok allCommits)
    else if (server nextUrl).ok = false then
      some (.error (classifyStatus (server nextUrl)))
    else
      match (server nextUrl).body with
      | none => some (.ok allCommits)
      | some [] => some (.ok allCommits)
      | some (i :: is) =>
        match lookupRel "next" (parseLinkHeader (server nextUrl).link) with
        | none => some (.ok (processPageItems seenShas allCommits (i :: is)).2)
        | some nu =>
          listCommitsLoop server fuel nu (nextUrl :: seenPageUrls)
            (processPageItems seenShas allCommits (i :: is)).1
            (processPageItems seenShas allCommits (i :: is)).2

/-- The listing stage: run the loop from the seed URL with empty visited
sets, then raise the distinct `No commits found` error when pagination was
exhausted with nothing collected. -/
def listCommits (server : String → Page) (fuel : ℕ) (startUrl : String) :
    Option (Except RunErr (List Commit)) :=
  match listCommitsLoop server fuel startUrl [] [] [] with
  | none => none
  | some (.error e) => some (.error e)
  | some (.ok commits) =>
      some (if commits.length = 0 then .error .noCommits else .ok commits)

/-! Derived next-URL chain, used to state termination: `nextOf` is the URL
the loop would continue with from a given page (defined exactly when the
iteration at that page recurses). -/

/-- The URL the loop follows out of `url`, when its iteration recurses. -/
def nextOf (server : String → Page) (url : String) : Option String :=
  if (server url).ok = false then none
  else
    match (server url).body with
    | none => none
    | some [] => none
    | some (_ :: _) => lookupRel "next" (parseLinkHeader (server url).link)

/-- The page-URL chain from a start URL: `urlChain server k u` is the URL
reached after following `k` next links. -/
def urlChain (server : String → Page) : ℕ → String → Option String
  | 0, u => some u
  | k + 1, u =>
    match nextOf server u with
    | none => none
    | some v => urlChain server k v

/-- The page-merging stage in isolation: fold `processPageItems` over the
successive page bodies, starting from empty seen-set and list (exactly the
loop's treatment of the pages it fetches). -/
def dedupAux : List String → List Commit → List (List Commit) → List String × List Commit
  | seen, acc, [] => (seen, acc)
  | seen, acc, items :: rest =>
    let st := processPageItems seen acc items
    dedupAux st.1 st.2 rest

/-- The deduplicated, insertion-ordered commit list produced from a page
sequence. -/
def dedupPages (pages : List (List Commit)) : List Commit :=
  (dedupAux [] [] pages).2

/-! ### File-extension derivation (`safeExt`) -/

/-- `String.prototype.split("/").pop()` style last segment, then the
substring after the last `.`, lowercased; fewer than two dot-parts, or an
empty extension, yield the `"(no-ext)"` sentinel. -/
def safeExt (filename : String) : String :=
  let base := ((splitChars '/' filename.data).getLastD [])
  let parts := splitChars '.' base
  if parts.length < 2 then "(no-ext)"
  else
    let ext := parts.getLastD []
    if ext = [] then "(no-ext)" else ⟨ext.map Char.toLower⟩

/-! ### Detail-fetch pool

One per-commit detail response: `ok` is the response flag (a swallowed
network exception behaves like a non-ok response: nothing is accumulated,
the `finally` block still runs); `stats` carries `additions`/`deletions`
when `json.stats` is present; `files` the filenames when `json.files` is an
array.

The pool claims indices through a shared monotone cursor, so each index is
processed exactly once; the publication predicate of the `finally` block
depends only on the claimed index `my`, never on how many items have
completed.  The run is embedded as the canonical sequential interleaving
(the single-worker schedule), in which the item with index `my` is also the
`my+1`-st completion. -/

structure DetailResp where
  ok : Bool
  stats : Option (ℕ × ℕ)
  files : Option (List String)
  deriving Repr, DecidableEq

/-- One `{current, total, pct}` progress snapshot. -/
structure Progress where
  current : ℕ
  total : ℕ
  pct : ℚ
  deriving Repr, DecidableEq

/-- The shared accumulators of the pool, plus the published snapshots. -/
structure DetailSt where
  totalLinesAdded : ℕ
  totalLinesDeleted : ℕ
  commitSizes : List ℕ
  fileExtensions : List (String × ℕ)
  events : List Progress
  deriving Repr, DecidableEq

/-- `fileExtensions[ext] = (fileExtensions[ext] || 0) + 1` on the
insertion-ordered counter object. -/
def bumpExt (m : List (String × ℕ)) (k : String) : List (String × ℕ) :=
  if m.any (fun q => q.1 == k) then m.map (fun q => if q.1 = k then (q.1, q.2 + 1) else q)
  else m ++ [(k, 1)]

/-- The snapshot published from the `finally` block after the item with
index `my` out of `n`: `done = Math.min(my + 1, n)`, `pct = done / n * 100`. -/
def mkSnapshot (n my : ℕ) : Progress :=
  { current := min (my + 1) n, total := n, pct := (min (my + 1) n : ℚ) / (n : ℚ) * 100 }

/-- The loop body for the item with claimed index `my`: on an ok response,
accumulate `stats.additions`/`stats.deletions` and the commit size, then
count each file's extension; the `finally` block publishes a snapshot (and
yields) exactly when `my % 6 === 0`. -/
def detailStep (n my : ℕ) (resp : DetailResp) (st : DetailSt) : DetailSt :=
  let st1 :=
    if resp.ok then
      let st' :=
        match resp.stats with
        | some (adds, dels) =>
          { st with
            totalLinesAdded := st.totalLinesAdded + adds
            totalLinesDeleted := st.totalLinesDeleted + dels
            commitSizes := st.commitSizes ++ [adds + dels] }
        | none => st
      match resp.files with
      | some fs =>
        { st' with fileExtensions := fs.foldl (fun m f => bumpExt m (safeExt f)) st'.fileExtensions }
      | none => st'
    else st
  if my % 6 = 0 then { st1 with events := st1.events ++ [mkSnapshot n my] } else st1

/-- Sequential run of the pool over the detail responses, claiming indices
in cursor order. -/
def detailAux (n : ℕ) : ℕ → List DetailResp → DetailSt → DetailSt
  | _, [], st => st
  | my, r :: rest, st => detailAux n (my + 1) rest (detailStep n my r st)

/-- The whole detail-fetch phase from empty accumulators. -/
def detailRun (resps : List DetailResp) : DetailSt :=
  detailAux resps.length 0 resps ⟨0, 0, [], [], []⟩

/-! ### Orchestrator surface for one subject

Only the claim-relevant slice of the per-subject state is modelled: the
phase string, the error-message slot and the result slot.  The result
record keeps the fields derivable from the listing alone (the fields that
need local-timezone hour extraction or the detail fetches are not
claim-relevant).  The transient `done → idle` display timer is not
modelled; a successful run is shown in its `done` state. -/

structure AnalysisResult where
  totalCommits : ℕ
  msgQuality : ℤ
  consistency : ℤ
  deriving Repr, DecidableEq

/-- The derived-metric fields of the result record built from the listed
commits. -/
def buildResult (commits : List Commit) : AnalysisResult :=
  { totalCommits := commits.length
    msgQuality := messageQualityScore commits
    consistency := jsRound (consistencyScoreOf (validDates commits)) }

structure SubjectOut where
  phase : String
  error : Option String
  result : Option AnalysisResult
  deriving Repr, DecidableEq

/-- One subject's run, as the orchestrator's `try`/`catch` leaves it: a
thrown listing error surfaces its message in the error slot and parks the
subject in `idle` with no result; a successful listing yields the result
record.  `none` when the fuel ran out. -/
def runSubject (server : String → Page) (fuel : ℕ) (startUrl : String) :
    Option SubjectOut :=
  match listCommits server fuel startUrl with
  | none => none
  | some (.error e) => some { phase := "idle", error := some e.message, result := none }
  | some (.ok commits) =>
      some { phase := "done", error := none, result := some (buildResult commits) }

/-! ### Concrete fixtures -/

/-- Two-commit fixture: one commit with a valid timestamp and a 15-character
message, one commit with no timestamp. -/
def c1commits : List Commit :=
  [⟨some "a", some 0, "update readme!!"⟩, ⟨some "b", none, "irrelevant"⟩]

/-- Six trivially-succeeding detail responses. -/
def sixResps : List DetailResp :=
  List.replicate 6 ⟨true, none, none⟩

/-- A two-page server whose second page's `next` link points back to the
first page. -/
def cycServer : String → Page := fun u =>
  if u = "p1" then ⟨true, 200, some [⟨some "c1", none, "m1"⟩], some "<p2>; rel=\"next\"", ""⟩
  else if u = "p2" then ⟨true, 200, some [⟨some "c2", none, "m2"⟩], some "<p1>; rel=\"next\"", ""⟩
  else ⟨false, 404, none, none, ""⟩

/-- A server that answers every URL with an ok, empty commit page. -/
def emptyServer : String → Page := fun _ => ⟨true, 200, some [], none, ""⟩

/-- Two pages sharing the commit identifier `a`. -/
def c7pages : List (List Commit) :=
  [[⟨some "a", none, "x"⟩], [⟨some "a", none, "y"⟩, ⟨some "b", none, "z"⟩]]

/-! ## Theorems -/

/-! ### Experience scorer -/

lemma volumeScore_le (tc : ℕ) : volumeScore tc ≤ 40 := by
  unfold volumeScore; split_ifs <;> omega

lemma volumeScore_ge (tc : ℕ) : 10 ≤ volumeScore tc := by
  unfold volumeScore; split_ifs <;> omega

lemma patternScore_le (otp : ℚ) : patternScore otp ≤ 15 := by
  unfold patternScore; split_ifs <;> omega

lemma patternScore_ge (otp : ℚ) : 2 ≤ patternScore otp := by
  unfold patternScore; split_ifs <;> omega

lemma qualityScore_le (mq : ℤ) : qualityScore mq ≤ 25 := by
  unfold qualityScore; split_ifs <;> omega

lemma qualityScore_ge (mq : ℤ) : 10 ≤ qualityScore mq := by
  unfold qualityScore; split_ifs <;> omega

lemma consistencyPart_le (cs : ℤ) (tc : ℕ) : consistencyPart cs tc ≤ 20 := by
  unfold consistencyPart; split_ifs <;> omega

lemma consistencyPart_ge (cs : ℤ) (tc : ℕ) : 5 ≤ consistencyPart cs tc := by
  unfold consistencyPart; split_ifs <;> omega

lemma levelFor_fst (s : ℕ) :
    (levelFor s).1 = if s ≥ 80 then "Senior" else if s ≥ 60 then "Mid-Level"
      else if s ≥ 40 then "Junior" else "Beginner" := by
  unfold levelFor; split_ifs <;> rfl

lemma levelFor_beginner {s : ℕ} (h : (levelFor s).1 = "Beginner") : s < 40 := by
  unfold levelFor at h
  split at h
  · exact absurd h (by decide)
  · split at h
    · exact absurd h (by decide)
    · split at h
      · exact absurd h (by decide)
      · omega

/-- C4: the experience scorer is a pure function of (total commits, on-time
percentage, message quality, consistency) whose four tier contributions are
capped at 40, 15, 25 and 20, the final score maps to levels by the
thresholds ≥80 Senior, ≥60 Mid-Level, ≥40 Junior, else Beginner, and the
inputs (250 commits, 65% on-time, quality 55, consistency 75) produce score
40+15+25+20 = 100 and level "Senior". -/
theorem experience_scorer_spec :
    (∀ (tc : ℕ) (otp : ℚ) (mq cs : ℤ),
      (calculateExperienceLevel tc otp mq cs).score
          = volumeScore tc + patternScore otp + qualityScore mq + consistencyPart cs tc
        ∧ volumeScore tc ≤ 40 ∧ patternScore otp ≤ 15 ∧ qualityScore mq ≤ 25
        ∧ consistencyPart cs tc ≤ 20
        ∧ (calculateExperienceLevel tc otp mq cs).level
            = (if (calculateExperienceLevel tc otp mq cs).score ≥ 80 then "Senior"
               else if (calculateExperienceLevel tc otp mq cs).score ≥ 60 then "Mid-Level"
               else if (calculateExperienceLevel tc otp mq cs).score ≥ 40 then "Junior"
               else "Beginner"))
    ∧ calculateExperienceLevel 250 65 55 75 = ⟨"Senior", "purple", 100⟩
    ∧ volumeScore 250 = 40 ∧ patternScore 65 = 15 ∧ qualityScore 55 = 25
    ∧ consistencyPart 75 250 = 20 := by
  refine ⟨fun tc otp mq cs => ⟨rfl, volumeScore_le tc, patternScore_le otp,
    qualityScore_le mq, consistencyPart_le cs tc, levelFor_fst _⟩,
    by decide, by decide, by decide, by decide, by decide⟩

/-- C10: for every input tuple both variants of the experience scorer
return a score in [27, 100]; in the primary variant the four contribution
branches have the non-zero floors 10 (volume), 2 (work pattern), 10
(message quality) and 5 (consistency), and "Beginner" is only reported with
scores in [27, 40). -/
theorem experience_score_bounds :
    (∀ (tc : ℕ) (otp : ℚ) (mq cs : ℤ),
      10 ≤ volumeScore tc ∧ 2 ≤ patternScore otp ∧ 10 ≤ qualityScore mq
        ∧ 5 ≤ consistencyPart cs tc
        ∧ 27 ≤ (calculateExperienceLevel tc otp mq cs).score
        ∧ (calculateExperienceLevel tc otp mq cs).score ≤ 100
        ∧ ((calculateExperienceLevel tc otp mq cs).level = "Beginner" →
            27 ≤ (calculateExperienceLevel tc otp mq cs).score
              ∧ (calculateExperienceLevel tc otp mq cs).score < 40))
    ∧ (∀ (tc : ℕ) (otp : ℚ) (mq cs : ℤ),
        27 ≤ (calculateExperienceLevelV2 tc otp mq cs).score
        ∧ (calculateExperienceLevelV2 tc otp mq cs).score ≤ 100
        ∧ ((calculateExperienceLevelV2 tc otp mq cs).level = "Beginner" →
            27 ≤ (calculateExperienceLevelV2 tc otp mq cs).score
              ∧ (calculateExperienceLevelV2 tc otp mq cs).score < 40)) := by
  constructor
  · intro tc otp mq cs
    have h1 := volumeScore_ge tc
    have h2 := patternScore_ge otp
    have h3 := qualityScore_ge mq
    have h4 := consistencyPart_ge cs tc
    have h5 := volumeScore_le tc
    have h6 := patternScore_le otp
    have h7 := qualityScore_le mq
    have h8 := consistencyPart_le cs tc
    have hsc : (calculateExperienceLevel tc otp mq cs).score
        = volumeScore tc + patternScore otp + qualityScore mq + consistencyPart cs tc := rfl
    refine ⟨h1, h2, h3, h4, by omega, by omega, fun hb => ⟨by omega, ?_⟩⟩
    exact levelFor_beginner hb
  · intro tc otp mq cs
    have h1 : 10 ≤ volumeScoreV2 tc := by unfold volumeScoreV2; split_ifs <;> omega
    have h2 := patternScore_ge otp
    have h3 : 15 ≤ qualityScoreV2 mq := by unfold qualityScoreV2; split_ifs <;> omega
    have h4 := consistencyPart_ge cs tc
    have h5 : volumeScoreV2 tc ≤ 35 := by unfold volumeScoreV2; split_ifs <;> omega
    have h6 := patternScore_le otp
    have h7 : qualityScoreV2 mq ≤ 30 := by unfold qualityScoreV2; split_ifs <;> omega
    have h8 := consistencyPart_le cs tc
    have hsc : (calculateExperienceLevelV2 tc otp mq cs).score
        = volumeScoreV2 tc + patternScore otp + qualityScoreV2 mq + consistencyPart cs tc := rfl
    refine ⟨by omega, by omega, fun hb => ⟨by omega, ?_⟩⟩
    exact levelFor_beginner hb

/-- Witness for the Beginner-range implication of `experience_score_bounds`
at the all-zero input. -/
theorem experience_score_bounds_w :
    (calculateExperienceLevel 0 0 0 0).level = "Beginner"
      ∧ 27 ≤ (calculateExperienceLevel 0 0 0 0).score
      ∧ (calculateExperienceLevel 0 0 0 0).score < 40 :=
  ⟨by decide, (experience_score_bounds.1 0 0 0 0).2.2.2.2.2.2 (by decide)⟩

/-! ### Per-commit message score -/

/-- C8: the per-commit message score is the sum of four independent
25-point checks (length over 10, length over 30, conventional-commit
prefix, issue reference), and on the four canonical messages of lengths 5,
15, 35 and 35 it takes the values 0, 25, 75 and 100. -/
theorem message_score_checks :
    (∀ message : String,
      messageScore message
        = (if message.length > 10 then 25 else 0)
          + (if message.length > 30 then 25 else 0)
          + (if isConventional message then 25 else 0)
          + (if hasIssueRef message.data then 25 else 0))
    ∧ ("tweak".length = 5 ∧ messageScore "tweak" = 0)
    ∧ ("update readme!!".length = 15 ∧ messageScore "update readme!!" = 25)
    ∧ ("fix: handle empty commit lists now!".length = 35
        ∧ messageScore "fix: handle empty commit lists now!" = 75)
    ∧ ("fix: handle empty lists, solves #42".length = 35
        ∧ messageScore "fix: handle empty lists, solves #42" = 100) :=
  ⟨fun _ => rfl, ⟨by decide, by decide⟩, ⟨by decide, by decide⟩,
    ⟨by decide, by decide⟩, ⟨by decide, by decide⟩⟩

/-! ### Overall message-quality score -/

lemma totalMessageScore_eq (l : List Commit) :
    totalMessageScore l
      = ((l.filter fun c => c.date.isSome).map fun c => messageScore c.message).sum := by
  induction l with
  | nil => rfl
  | cons c rest ih =>
    cases h : c.date with
    | none => simp [totalMessageScore, List.filter_cons, h, ih]
    | some d => simp [totalMessageScore, List.filter_cons, h, ih]

/-- C1 counterexample: on one valid-timestamp commit scoring 25 next to one
commit without a timestamp, the code averages over both commits and reports
13, while a mean over only the valid-timestamp commits would report 25. -/
theorem message_quality_denominator_cx :
    messageQualityScore c1commits = 13
      ∧ specMessageQuality c1commits = 25
      ∧ (13 : ℤ) ≠ 25 :=
  ⟨by with_unfolding_all rfl, by with_unfolding_all rfl, by decide⟩

/-- C1 (amended): the overall message-quality score is the rounded quotient
of the per-commit scores summed over exactly the commits with a valid
timestamp by the total number of listed commits — commits without a valid
timestamp contribute nothing to the numerator but still count in the
denominator. -/
theorem message_quality_mean_over_all :
    ∀ commits : List Commit, commits ≠ [] →
      messageQualityScore commits
        = jsRound
            (((((commits.filter fun c => c.date.isSome).map
                  fun c => messageScore c.message).sum : ℕ) : ℚ)
              / (commits.length : ℚ)) := by
  intro commits hne
  unfold messageQualityScore
  rw [if_neg (by simpa using List.length_pos.2 hne |>.ne'), totalMessageScore_eq]

/-- Witness for `message_quality_mean_over_all` at the two-commit fixture. -/
theorem message_quality_mean_over_all_w :
    c1commits ≠ []
      ∧ messageQualityScore c1commits
          = jsRound
              (((((c1commits.filter fun c => c.date.isSome).map
                    fun c => messageScore c.message).sum : ℕ) : ℚ)
                / (c1commits.length : ℚ)) :=
  ⟨by decide, message_quality_mean_over_all c1commits (by decide)⟩

/-! ### Consistency score -/

lemma dayGaps_nonneg : ∀ l : List ℚ, l.Sorted (· ≤ ·) → ∀ g ∈ dayGaps l, 0 ≤ g
  | [], _, g, hg => by simp [dayGaps] at hg
  | [a], _, g, hg => by simp [dayGaps] at hg
  | a :: b :: rest, hs, g, hg => by
    rw [dayGaps] at hg
    rcases List.mem_cons.1 hg with h | h
    · have hab : a ≤ b := (List.sorted_cons.1 hs).1 b (by simp)
      subst h
      exact div_nonneg (by linarith) (by norm_num)
    · exact dayGaps_nonneg (b :: rest) (List.sorted_cons.1 hs).2 g h

lemma intervals_eq_dayGaps (dates : List ℚ) :
    intervals dates = dayGaps (sortedDates dates) := by
  unfold intervals
  refine List.filter_eq_self.2 fun g hg => ?_
  have hs : (sortedDates dates).Sorted (· ≤ ·) :=
    List.sorted_insertionSort (· ≤ ·) dates
  simpa using dayGaps_nonneg _ hs g hg

lemma clamp_bounds (x : ℚ) : 0 ≤ clamp x 0 100 ∧ clamp x 0 100 ≤ 100 := by
  unfold clamp jsMax jsMin
  split_ifs <;> constructor <;> linarith

/-- C5: the consistency score is `clamp(100 − avg_gap_days · 5, 0, 100)`
over the consecutive gaps of the ascending-sorted valid timestamps, the
negative-gap filter being vacuous after sorting; zero or one timestamp
yields 100, three timestamps one day apart yield 95, and the score always
lies in [0, 100]. -/
theorem consistency_score_spec :
    (∀ dates : List ℚ, dates.length ≤ 1 → consistencyScoreOf dates = 100)
      ∧ (∀ t : ℚ, consistencyScoreOf [t, t + 86400000, t + 2 * 86400000] = 95)
      ∧ (∀ dates : List ℚ, intervals dates = dayGaps (sortedDates dates))
      ∧ (∀ dates : List ℚ,
          consistencyScoreOf dates = clamp (100 - avgInterval dates * 5) 0 100
            ∧ 0 ≤ consistencyScoreOf dates ∧ consistencyScoreOf dates ≤ 100) := by
  refine ⟨?_, ?_, intervals_eq_dayGaps, fun dates => ⟨rfl, clamp_bounds _⟩⟩
  · intro dates hlen
    match dates with
    | [] => with_unfolding_all rfl
    | [d] =>
      have h1 : sortedDates [d] = [d] := rfl
      have h2 : intervals [d] = [] := by rw [intervals_eq_dayGaps, h1]; rfl
      have h3 : avgInterval [d] = 0 := by rw [avgInterval, h2]; rfl
      rw [consistencyScoreOf, h3]
      norm_num [clamp, jsMax, jsMin]
    | _ :: _ :: _ => simp at hlen
  · intro t
    have hsorted : sortedDates [t, t + 86400000, t + 2 * 86400000]
        = [t, t + 86400000, t + 2 * 86400000] := by
      unfold sortedDates
      rw [List.insertionSort]
      rw [show List.insertionSort (· ≤ ·) [t + 86400000, t + 2 * 86400000]
            = [t + 86400000, t + 2 * 86400000] by
        rw [List.insertionSort, List.insertionSort, List.insertionSort,
          List.orderedInsert, List.orderedInsert, if_pos (by linarith)]]
      rw [List.orderedInsert, if_pos (by linarith)]
    have e1 : (t + 86400000 - t) / (86400000 : ℚ) = 1 := by
      rw [show t + 86400000 - t = (86400000 : ℚ) by ring]; norm_num
    have e2 : (t + 2 * 86400000 - (t + 86400000)) / (86400000 : ℚ) = 1 := by
      rw [show t + 2 * 86400000 - (t + 86400000) = (86400000 : ℚ) by ring]; norm_num
    have hgaps : dayGaps [t, t + 86400000, t + 2 * 86400000] = [1, 1] := by
      show [(t + 86400000 - t) / 86400000, (t + 2 * 86400000 - (t + 86400000)) / 86400000] = [1, 1]
      rw [e1, e2]
    have hiv : intervals [t, t + 86400000, t + 2 * 86400000] = [1, 1] := by
      rw [intervals_eq_dayGaps, hsorted, hgaps]
    have havg : avgInterval [t, t + 86400000, t + 2 * 86400000] = 1 := by
      rw [avgInterval, hiv]; norm_num
    rw [consistencyScoreOf, havg]
    norm_num [clamp, jsMax, jsMin]

/-- Witness for the zero-or-one-timestamp branch of
`consistency_score_spec`. -/
theorem consistency_score_spec_w :
    ([] : List ℚ).length ≤ 1 ∧ consistencyScoreOf [] = 100 :=
  ⟨by decide, consistency_score_spec.1 [] (by decide)⟩

/-! ### Detail-fetch progress events -/

lemma detailStep_events (n my : ℕ) (resp : DetailResp) (st : DetailSt) :
    (detailStep n my resp st).events
      = st.events ++ (if my % 6 = 0 then [mkSnapshot n my] else []) := by
  rcases resp with ⟨ok, stats, files⟩
  cases ok <;> rcases stats with _ | ⟨adds, dels⟩ <;> rcases files with _ | fs <;>
    by_cases h6 : my % 6 = 0 <;> simp [detailStep, h6]

lemma detailAux_events (n : ℕ) :
    ∀ (resps : List DetailResp) (my : ℕ) (st : DetailSt),
      (detailAux n my resps st).events
        = st.events
            ++ ((List.range' my resps.length).filter fun k => k % 6 = 0).map (mkSnapshot n) := by
  intro resps
  induction resps with
  | nil => intro my st; simp [detailAux, List.range']
  | cons r rest ih =>
    intro my st
    rw [detailAux, ih (my + 1), detailStep_events]
    rw [List.length_cons, List.range'_succ, List.filter_cons]
    by_cases h6 : my % 6 = 0 <;> simp [h6, List.append_assoc]

/-- C2 counterexample: over six detail items the code publishes exactly one
snapshot, after the first completed item (claimed index 0), with
`current = 1` — not one snapshot after the sixth completed item with
`current = 6` as the claim requires. -/
theorem detail_progress_cx :
    sixResps.length = 6
      ∧ (detailRun sixResps).events = [{ current := 1, total := 6, pct := 50 / 3 }]
      ∧ ({ current := 1, total := 6, pct := 50 / 3 } : Progress)
          ≠ { current := 6, total := 6, pct := 100 } :=
  ⟨by decide, by with_unfolding_all rfl, by simp⟩

/-- C2 (amended): during the detail-fetch phase a snapshot
`{min(my+1, total), total, percent}` is published (followed by a yield)
after completing exactly the items whose zero-based claimed index `my` is
divisible by 6 — selection is by the item's index in the commit list (the
first, seventh, thirteenth, … claimed items), not by completion count. -/
theorem detail_progress_by_index :
    ∀ resps : List DetailResp,
      (detailRun resps).events
        = ((List.range resps.length).filter fun k => k % 6 = 0).map
            (mkSnapshot resps.length) := by
  intro resps
  rw [detailRun, detailAux_events, List.range_eq_range']
  rfl

/-! ### Link-header parsing -/

lemma objInsert_fresh (m : List (String × String)) (k v : String)
    (h : ∀ q ∈ m, q.1 ≠ k) : objInsert m k v = m ++ [(k, v)] := by
  have ha : m.any (fun q => q.1 == k) = false := by
    rw [List.any_eq_false]
    intro q hq
    simpa using h q hq
  unfold objInsert
  simp [ha]

lemma foldl_objInsert_nodup :
    ∀ (l m : List (String × String)), ((m ++ l).map Prod.fst).Nodup →
      l.foldl (fun acc kv => objInsert acc kv.1 kv.2) m = m ++ l := by
  intro l
  induction l with
  | nil => intro m _; simp
  | cons kv rest ih =>
    intro m hnd
    have hk : ∀ q ∈ m, q.1 ≠ kv.1 := by
      intro q hq
      have := (List.nodup_append.1 (by simpa using hnd)).2.2
      exact fun he => this (List.mem_map_of_mem Prod.fst hq) (by simp [he])
    rw [List.foldl_cons, objInsert_fresh m kv.1 kv.2 hk]
    have : ((m ++ [(kv.1, kv.2)]) ++ rest).map Prod.fst |>.Nodup := by
      simpa [List.append_assoc] using hnd
    rw [ih (m ++ [(kv.1, kv.2)]) this, List.append_assoc]
    rfl

/-- C3 counterexample: the header `http://a; rel="next"` has zero
well-formed `<url>; rel="name"` entries (no angle brackets), yet the parser
keeps it and returns one mapping entry; and a header with two well-formed
entries sharing the rel name `next` returns one entry, not two. -/
theorem link_header_cx :
    parseLinkHeader (some "http://a; rel=\"next\"") = [("next", "http://a")]
      ∧ parseLinkHeader (some "<u1>; rel=\"next\", <u2>; rel=\"next\"") = [("next", "u2")]
      ∧ ([("next", "http://a")] : List (String × String)).length ≠ 0
      ∧ ([("next", "u2")] : List (String × String)).length ≠ 2 := by
  refine ⟨by decide, by decide, by decide, by decide⟩

/-- C3 (amended): the parser never raises and returns exactly the entries
whose `;`-split part has both a truthy URL (trimmed first segment after
stripping one leading `<` and one trailing `>`) and a truthy `rel="…"`
capture; when the parsed rel names are pairwise distinct the mapping is
exactly that entry sequence (so N well-formed entries with distinct rel
names give exactly N mapping entries), entries missing `rel=` are dropped,
entries missing angle brackets are kept with the trimmed segment as their
URL, duplicate rel names collapse into a single entry, and an absent or
empty header yields the empty mapping. -/
theorem link_header_mapping :
    (∀ h : String,
        ((((splitChars ',' h.data).filterMap entryParse).map Prod.fst).Nodup →
          parseLinkHeader (some h) = (splitChars ',' h.data).filterMap entryParse))
      ∧ parseLinkHeader none = []
      ∧ parseLinkHeader (some "") = []
      ∧ entryParse ("<http://a>; rel=\"next\"").data = some ("next", "http://a")
      ∧ entryParse ("http://a; rel=\"next\"").data = some ("next", "http://a")
      ∧ entryParse ("<http://a>").data = none
      ∧ entryParse ("<http://a>; rel=next").data = none
      ∧ parseLinkHeader (some "<http://a>; rel=\"next\", <http://b>; rel=\"last\"")
          = [("next", "http://a"), ("last", "http://b")] := by
  refine ⟨?_, rfl, by decide, by decide, by decide, by decide, by decide, by decide⟩
  intro h hnd
  by_cases he : h = ""
  · subst he; decide
  · have hp : parseLinkHeader (some h)
        = if h = "" then []
          else ((splitChars ',' h.data).filterMap entryParse).foldl
            (fun m kv => objInsert m kv.1 kv.2) [] := rfl
    rw [hp, if_neg he]
    exact foldl_objInsert_nodup _ [] (by simpa using hnd)

/-- Witness for the distinct-rels branch of `link_header_mapping`. -/
theorem link_header_mapping_w :
    (((splitChars ',' ("<http://a>; rel=\"next\", <http://b>; rel=\"last\"").data).filterMap
        entryParse).map Prod.fst).Nodup
      ∧ parseLinkHeader (some "<http://a>; rel=\"next\", <http://b>; rel=\"last\"")
          = (splitChars ',' ("<http://a>; rel=\"next\", <http://b>; rel=\"last\"").data).filterMap
              entryParse :=
  ⟨by decide, link_header_mapping.1 "<http://a>; rel=\"next\", <http://b>; rel=\"last\"" (by decide)⟩

/-! ### Deduplication invariants -/

lemma processPageItems_count (s : String) (items : List Commit) :
    ∀ (seen : List String) (acc : List Commit),
      acc.countP (fun c => decide (c.sha = some s)) = (if s ∈ seen then 1 else 0) →
        (processPageItems seen acc items).2.countP (fun c => decide (c.sha = some s))
          = if s ∈ (processPageItems seen acc items).1 then 1 else 0 := by
  induction items with
  | nil => intro seen acc h; simpa [processPageItems] using h
  | cons c rest ih =>
    intro seen acc h
    cases hsha : c.sha with
    | none =>
      rw [processPageItems, hsha]
      refine ih seen (acc ++ [c]) ?_
      rw [List.countP_append, h]
      simp [List.countP_cons, hsha]
    | some s' =>
      by_cases hm : s' ∈ seen
      · rw [processPageItems, hsha]
        simp only [if_pos hm]
        exact ih seen acc h
      · rw [processPageItems, hsha]
        simp only [if_neg hm]
        refine ih (s' :: seen) (acc ++ [c]) ?_
        rw [List.countP_append, h]
        by_cases hss : s = s'
        · subst hss
          simp [List.countP_cons, hsha, hm]
        · simp [List.countP_cons, hsha, hss, Ne.symm hss]

lemma processPageItems_seen_mono (items : List Commit) :
    ∀ (seen : List String) (acc : List Commit) (x : String),
      x ∈ seen → x ∈ (processPageItems seen acc items).1 := by
  induction items with
  | nil => intro seen acc x hx; simpa [processPageItems] using hx
  | cons c rest ih =>
    intro seen acc x hx
    cases hsha : c.sha with
    | none =>
      rw [processPageItems, hsha]
      exact ih seen (acc ++ [c]) x hx
    | some s' =>
      by_cases hm : s' ∈ seen
      · rw [processPageItems, hsha]
        simp only [if_pos hm]
        exact ih seen acc x hx
      · rw [processPageItems, hsha]
        simp only [if_neg hm]
        exact ih (s' :: seen) (acc ++ [c]) x (List.mem_cons_of_mem _ hx)

lemma processPageItems_mem (s : String) (items : List Commit) :
    ∀ (seen : List String) (acc : List Commit),
      some s ∈ items.map Commit.sha →
        s ∈ (processPageItems seen acc items).1 := by
  induction items with
  | nil => intro seen acc h; simp at h
  | cons c rest ih =>
    intro seen acc h
    cases hsha : c.sha with
    | none =>
      rw [processPageItems, hsha]
      apply ih
      rcases List.mem_map.1 h with ⟨c0, hc0, hc0s⟩
      rcases List.mem_cons.1 hc0 with rfl | ht
      · rw [hsha] at hc0s; cases hc0s
      · exact List.mem_map.2 ⟨c0, ht, hc0s⟩
    | some s' =>
      by_cases hss : s' = s
      · by_cases hm : s' ∈ seen
        · rw [processPageItems, hsha]
          simp only [if_pos hm]
          exact processPageItems_seen_mono rest seen acc s (hss ▸ hm)
        · rw [processPageItems, hsha]
          simp only [if_neg hm]
          exact processPageItems_seen_mono rest (s' :: seen) (acc ++ [c]) s (by simp [hss])
      · have hrest : some s ∈ rest.map Commit.sha := by
          rcases List.mem_map.1 h with ⟨c0, hc0, hc0s⟩
          rcases List.mem_cons.1 hc0 with rfl | ht
          · rw [hsha] at hc0s
            exact absurd (by simpa using hc0s) hss
          · exact List.mem_map.2 ⟨c0, ht, hc0s⟩
        by_cases hm : s' ∈ seen
        · rw [processPageItems, hsha]
          simp only [if_pos hm]
          exact ih seen acc hrest
        · rw [processPageItems, hsha]
          simp only [if_neg hm]
          exact ih (s' :: seen) (acc ++ [c]) hrest

lemma processPageItems_append (items : List Commit) :
    ∀ (seen : List String) (acc : List Commit),
      ∃ t, (processPageItems seen acc items).2 = acc ++ t ∧ t.Sublist items := by
  induction items with
  | nil => intro seen acc; exact ⟨[], by simp [processPageItems]⟩
  | cons c rest ih =>
    intro seen acc
    cases hsha : c.sha with
    | none =>
      obtain ⟨t, ht, hsub⟩ := ih seen (acc ++ [c])
      refine ⟨c :: t, ?_, hsub.cons₂ c⟩
      rw [processPageItems, hsha, ht, List.append_assoc]
      rfl
    | some s' =>
      by_cases hm : s' ∈ seen
      · obtain ⟨t, ht, hsub⟩ := ih seen acc
        refine ⟨t, ?_, hsub.cons c⟩
        rw [processPageItems, hsha]
        simp only [if_pos hm]
        exact ht
      · obtain ⟨t, ht, hsub⟩ := ih (s' :: seen) (acc ++ [c])
        refine ⟨c :: t, ?_, hsub.cons₂ c⟩
        rw [processPageItems, hsha]
        simp only [if_neg hm]
        rw [ht, List.append_assoc]
        rfl

lemma dedupAux_count (s : String) (pages : List (List Commit)) :
    ∀ (seen : List String) (acc : List Commit),
      acc.countP (fun c => decide (c.sha = some s)) = (if s ∈ seen then 1 else 0) →
        (dedupAux seen acc pages).2.countP (fun c => decide (c.sha = some s))
          = if s ∈ (dedupAux seen acc pages).1 then 1 else 0 := by
  induction pages with
  | nil => intro seen acc h; simpa [dedupAux] using h
  | cons items rest ih =>
    intro seen acc h
    rw [dedupAux]
    exact ih _ _ (processPageItems_count s items seen acc h)

lemma dedupAux_seen_mono (pages : List (List Commit)) :
    ∀ (seen : List String) (acc : List Commit) (x : String),
      x ∈ seen → x ∈ (dedupAux seen acc pages).1 := by
  induction pages with
  | nil => intro seen acc x hx; simpa [dedupAux] using hx
  | cons items rest ih =>
    intro seen acc x hx
    rw [dedupAux]
    exact ih _ _ x (processPageItems_seen_mono items seen acc x hx)

lemma dedupAux_mem (s : String) (pages : List (List Commit)) :
    ∀ (seen : List String) (acc : List Commit),
      (∃ items ∈ pages, some s ∈ items.map Commit.sha) →
        s ∈ (dedupAux seen acc pages).1 := by
  induction pages with
  | nil => intro seen acc h; simp at h
  | cons items rest ih =>
    intro seen acc h
    rcases h with ⟨items0, hin, hmem⟩
    rcases List.mem_cons.1 hin with rfl | ht
    · rw [dedupAux]
      exact dedupAux_seen_mono rest _ _ s (processPageItems_mem s items0 seen acc hmem)
    · rw [dedupAux]
      exact ih _ _ ⟨items0, ht, hmem⟩

lemma dedupAux_sublist (pages : List (List Commit)) :
    ∀ (seen : List String) (acc : List Commit),
      ∃ t, (dedupAux seen acc pages).2 = acc ++ t ∧ t.Sublist pages.flatten := by
  induction pages with
  | nil => intro seen acc; exact ⟨[], by simp [dedupAux]⟩
  | cons items rest ih =>
    intro seen acc
    obtain ⟨t1, ht1, hsub1⟩ := processPageItems_append items seen acc
    obtain ⟨t2, ht2, hsub2⟩ := ih (processPageItems seen acc items).1
      (processPageItems seen acc items).2
    refine ⟨t1 ++ t2, ?_, ?_⟩
    · rw [dedupAux, ht2, ht1, List.append_assoc]
    · simpa [List.flatten] using hsub1.append hsub2

/-- C7: when a commit identifier occurs anywhere in the paginated input,
the merged list produced by the page loop's skip-if-seen/append-and-mark
insertion contains exactly one commit with that identifier, and the merged
list is a subsequence of the concatenated pages (first-insertion order is
preserved). -/
theorem dedup_exactly_once :
    ∀ (pages : List (List Commit)) (s : String),
      some s ∈ pages.flatten.map Commit.sha →
        (dedupPages pages).countP (fun c => decide (c.sha = some s)) = 1
          ∧ (dedupPages pages).Sublist pages.flatten := by
  intro pages s hmem
  constructor
  · have hexists : ∃ items ∈ pages, some s ∈ items.map Commit.sha := by
      rcases List.mem_map.1 hmem with ⟨c0, hc0, hc0s⟩
      rcases List.mem_flatten.1 hc0 with ⟨items, hitems, hcin⟩
      exact ⟨items, hitems, List.mem_map.2 ⟨c0, hcin, hc0s⟩⟩
    have hcount := dedupAux_count s pages [] [] (by simp)
    have hfin : s ∈ (dedupAux [] [] pages).1 := dedupAux_mem s pages [] [] hexists
    rw [dedupPages, hcount, if_pos hfin]
  · obtain ⟨t, ht, hsub⟩ := dedupAux_sublist pages [] []
    rw [dedupPages, ht]
    simpa using hsub

/-- Witness for `dedup_exactly_once` on two pages sharing identifier
`a`. -/
theorem dedup_exactly_once_w :
    (dedupPages c7pages).countP (fun c => decide (c.sha = some "a")) = 1
      ∧ (dedupPages c7pages).Sublist c7pages.flatten :=
  dedup_exactly_once c7pages "a" (by decide)

/-! ### Pagination termination -/

lemma listLoop_none_succ {server : String → Page} {f : ℕ} {u : String}
    {seenU seenS : List String} {acc : List Commit}
    (h : listCommitsLoop server (f + 1) u seenU seenS acc = none) :
    u ∉ seenU ∧ ∃ nu, nextOf server u = some nu ∧
      ∃ (seenS' : List String) (acc' : List Commit),
        listCommitsLoop server f nu (u :: seenU) seenS' acc' = none := by
  rw [listCommitsLoop] at h
  split at h
  · cases h
  · rename_i hu
    split at h
    · cases h
    · rename_i hok
      split at h
      · cases h
      · cases h
      · rename_i i is hbody
        split at h
        · cases h
        · rename_i nu hnext
          refine ⟨hu, nu, ?_, _, _, h⟩
          rw [nextOf, if_neg hok]
          simp only [hbody, hnext]

lemma listLoop_none_avoid (server : String → Page) :
    ∀ (f : ℕ) (u : String) (seenU seenS : List String) (acc : List Commit),
      listCommitsLoop server f u seenU seenS acc = none →
        ∀ k, k < f → ∀ w, urlChain server k u = some w → w ∉ seenU := by
  intro f
  induction f with
  | zero =>
    intro u seenU seenS acc h k hk
    exact absurd hk (Nat.not_lt_zero k)
  | succ f ih =>
    intro u seenU seenS acc h k hk w hw
    obtain ⟨hu, nu, hnext, seenS', acc', hrec⟩ := listLoop_none_succ h
    cases k with
    | zero =>
      rw [urlChain] at hw
      cases hw
      exact hu
    | succ k =>
      simp only [urlChain, hnext] at hw
      have hnotin := ih nu (u :: seenU) seenS' acc' hrec k (by omega) w hw
      exact fun hmem => hnotin (List.mem_cons_of_mem _ hmem)

lemma listLoop_none_inj (server : String → Page) :
    ∀ (f : ℕ) (u : String) (seenU seenS : List String) (acc : List Commit),
      listCommitsLoop server f u seenU seenS acc = none →
        ∀ i j w, i < j → j < f →
          urlChain server i u = some w → urlChain server j u = some w → False := by
  intro f
  induction f with
  | zero =>
    intro u seenU seenS acc h i j w hij hj
    exact absurd hj (Nat.not_lt_zero j)
  | succ f ih =>
    intro u seenU seenS acc h i j w hij hj hi hjc
    obtain ⟨hu, nu, hnext, seenS', acc', hrec⟩ := listLoop_none_succ h
    cases i with
    | zero =>
      rw [urlChain] at hi
      cases hi
      cases j with
      | zero => omega
      | succ j =>
        simp only [urlChain, hnext] at hjc
        exact listLoop_none_avoid server f nu (u :: seenU) seenS' acc' hrec j
          (by omega) u hjc (List.mem_cons_self u seenU)
    | succ i =>
      cases j with
      | zero => omega
      | succ j =>
        simp only [urlChain, hnext] at hi hjc
        exact ih nu (u :: seenU) seenS' acc' hrec i j w (by omega) (by omega) hi hjc

/-- C6: whenever some page's next-link chain revisits an earlier page URL
(a cyclical `next` link, `urlChain` hitting the same URL at positions
`i < j`), the listing loop finishes within `j + 1` iterations: the
visited-URL set ensures no page URL is ever fetched twice, so listing never
loops forever on cyclical links. -/
theorem pagination_cycle_terminates :
    ∀ (server : String → Page) (i j : ℕ) (u w : String) (fuel : ℕ),
      i < j → urlChain server i u = some w → urlChain server j u = some w →
        j < fuel → (listCommitsLoop server fuel u [] [] []).isSome := by
  intro server i j u w fuel hij hi hj hfuel
  rcases hcase : listCommitsLoop server fuel u [] [] [] with _ | r
  · exact (listLoop_none_inj server fuel u [] [] [] hcase i j w hij hfuel hi hj).elim
  · simp

/-- Witness for `pagination_cycle_terminates` on the two-page cyclic
fixture: page 2's `next` link points back to page 1. -/
theorem pagination_cycle_terminates_w :
    (0 : ℕ) < 2 ∧ urlChain cycServer 0 "p1" = some "p1"
      ∧ urlChain cycServer 2 "p1" = some "p1" ∧ (2 : ℕ) < 3
      ∧ (listCommitsLoop cycServer 3 "p1" [] [] []).isSome :=
  ⟨by decide, by decide, by decide, by decide,
    pagination_cycle_terminates cycServer 0 2 "p1" "p1" 3 (by decide) (by decide)
      (by decide) (by decide)⟩

/-! ### The distinct no-commits failure -/

/-- C9: when pagination is exhausted with zero commits collected, the
pipeline raises the distinct `No commits found` condition rather than
succeeding emptily: the listing stage returns that error, and the subject
ends in the `idle` phase with the message surfaced and no result record. -/
theorem no_commits_distinct_failure :
    ∀ (server : String → Page) (fuel : ℕ) (startUrl : String),
      listCommitsLoop server fuel startUrl [] [] [] = some (.ok []) →
        listCommits server fuel startUrl = some (.error .noCommits)
          ∧ runSubject server fuel startUrl
              = some { phase := "idle", error := some "No commits found", result := none }
          ∧ RunErr.noCommits.message = "No commits found" := by
  intro server fuel startUrl h
  have hlist : listCommits server fuel startUrl = some (.error .noCommits) := by
    rw [listCommits, h]
    rfl
  refine ⟨hlist, ?_, rfl⟩
  rw [runSubject, hlist]
  rfl

/-- Witness for `no_commits_distinct_failure` on the all-pages-empty
server. -/
theorem no_commits_distinct_failure_w :
    listCommits emptyServer 1 "u" = some (.error .noCommits)
      ∧ runSubject emptyServer 1 "u"
          = some { phase := "idle", error := some "No commits found", result := none }
      ∧ RunErr.noCommits.message = "No commits found" :=
  no_commits_distinct_failure emptyServer 1 "u" (by with_unfolding_all rfl)

end GCA
